import Mathlib

/-!
Shallow embedding, in exact arithmetic, of `pybasicbayes/distributions/regression.py`
(classes `Regression`, `RegressionNonconj`, `ARDRegression`).

Modelling conventions:
* numpy float arrays are modelled as matrices/vectors over `ℚ` when only finite
  values are involved; where the code's NaN filtering matters, entries live in
  `NpVal`, rationals extended with IEEE-style `nan`, `pinf` (+infinity) and
  `ninf` (-infinity), with IEEE addition/multiplication rules.
* a data matrix with `din` input and `dout` output columns is a `List` of rows,
  each row a function on the column index type `Fin din ⊕ Fin dout` (`Sum.inl`
  columns are the inputs `x`, `Sum.inr` columns the outputs `y`); this is the
  partition `statmat[:-D,:-D]`, `statmat[-D:,:-D]`, `statmat[-D:,-D:]` used by
  `_get_statistics`.  The non-affine configuration (`affine=False`) is modelled.
* the trusted numeric utility layer of the repository (`pybasicbayes.util`),
  whose source is not part of this tree, is modelled from the spec: `inv_psd`
  and `np.linalg.inv`/`np.linalg.solve` as exact matrix inversion (`minv`),
  the sampling primitives as explicit oracle function parameters, and
  `getdatasize` as the row count.
-/

namespace PyBasicBayes

open Matrix

/-! ## Definitions -/

/-- Scalar value of a numpy float array: a finite rational or one of the
IEEE special values NaN, +inf, -inf. -/
inductive NpVal : Type where
  | fin (q : ℚ)
  | nan
  | pinf
  | ninf
deriving DecidableEq

namespace NpVal

/-- IEEE addition on `NpVal` (exact rational arithmetic on finite values). -/
def add : NpVal → NpVal → NpVal
  | nan, _ => nan
  | _, nan => nan
  | pinf, ninf => nan
  | ninf, pinf => nan
  | pinf, _ => pinf
  | _, pinf => pinf
  | ninf, _ => ninf
  | _, ninf => ninf
  | fin a, fin b => fin (a + b)

/-- IEEE multiplication on `NpVal` (exact rational arithmetic on finite
values; an infinity times zero is NaN). -/
def mul : NpVal → NpVal → NpVal
  | nan, _ => nan
  | _, nan => nan
  | pinf, pinf => pinf
  | pinf, ninf => ninf
  | ninf, pinf => ninf
  | ninf, ninf => pinf
  | pinf, fin q => if 0 < q then pinf else if q < 0 then ninf else nan
  | fin q, pinf => if 0 < q then pinf else if q < 0 then ninf else nan
  | ninf, fin q => if 0 < q then ninf else if q < 0 then pinf else nan
  | fin q, ninf => if 0 < q then ninf else if q < 0 then pinf else nan
  | fin a, fin b => fin (a * b)

instance : Add NpVal := ⟨add⟩

instance : Mul NpVal := ⟨mul⟩

instance : Zero NpVal := ⟨fin 0⟩

/-- Model of `np.isnan` on one entry: true only on NaN (false on ±inf). -/
def isnanB : NpVal → Bool
  | nan => true
  | _ => false

/-- True exactly on finite values (false on NaN and on ±inf). -/
def isfinB : NpVal → Bool
  | fin _ => true
  | _ => false

/-- Projection back to `ℚ` (exact on finite values; non-finite values, which
cannot occur in the statistics of finite-valued data, map to `0`). -/
def toQ : NpVal → ℚ
  | fin q => q
  | _ => 0

instance : AddCommMonoid NpVal where
  add_assoc a b c := by
    cases a <;> cases b <;> cases c <;>
      first
        | rfl
        | exact congrArg NpVal.fin (add_assoc _ _ _)
  zero_add a := by
    cases a <;> first | rfl | exact congrArg NpVal.fin (zero_add _)
  add_zero a := by
    cases a <;> first | rfl | exact congrArg NpVal.fin (add_zero _)
  add_comm a b := by
    cases a <;> cases b <;>
      first
        | rfl
        | exact congrArg NpVal.fin (add_comm _ _)
  nsmul := nsmulRec

end NpVal

/-- Column index of a stacked input/output data matrix: `Sum.inl` are the
`din` input columns (leftmost), `Sum.inr` the `dout` output columns
(rightmost), matching the `statmat` block partition by `D_out`. -/
abbrev Col (din dout : ℕ) := Sum (Fin din) (Fin dout)

/-- One row of a data matrix. -/
abbrev Row (din dout : ℕ) := Col din dout → NpVal

/-- The 4-tuple `np.array([yyT, yxT, xxT, n])` of sufficient statistics. -/
@[ext]
structure RegStats (din dout : ℕ) where
  yyT : Matrix (Fin dout) (Fin dout) NpVal
  yxT : Matrix (Fin dout) (Fin din) NpVal
  xxT : Matrix (Fin din) (Fin din) NpVal
  n : NpVal

variable {din dout : ℕ}

/-- `Regression._empty_statistics`: zero matrices of shapes
`(D_out,D_out)`, `(D_out,D_in)`, `(D_in,D_in)` and the count `0`. -/
def emptyStats (din dout : ℕ) : RegStats din dout :=
  ⟨0, 0, 0, 0⟩

instance : Zero (RegStats din dout) := ⟨emptyStats din dout⟩

instance : Add (RegStats din dout) :=
  ⟨fun s t => ⟨s.yyT + t.yyT, s.yxT + t.yxT, s.xxT + t.xxT, s.n + t.n⟩⟩

instance : AddCommMonoid (RegStats din dout) where
  add_assoc a b c := by
    obtain ⟨a1, a2, a3, a4⟩ := a
    obtain ⟨b1, b2, b3, b4⟩ := b
    obtain ⟨c1, c2, c3, c4⟩ := c
    show RegStats.mk (a1 + b1 + c1) (a2 + b2 + c2) (a3 + b3 + c3) (a4 + b4 + c4) =
      RegStats.mk (a1 + (b1 + c1)) (a2 + (b2 + c2)) (a3 + (b3 + c3)) (a4 + (b4 + c4))
    rw [add_assoc, add_assoc, add_assoc, add_assoc]
  zero_add a := by
    obtain ⟨a1, a2, a3, a4⟩ := a
    show RegStats.mk (0 + a1) (0 + a2) (0 + a3) (0 + a4) = RegStats.mk a1 a2 a3 a4
    rw [zero_add, zero_add, zero_add, zero_add]
  add_zero a := by
    obtain ⟨a1, a2, a3, a4⟩ := a
    show RegStats.mk (a1 + 0) (a2 + 0) (a3 + 0) (a4 + 0) = RegStats.mk a1 a2 a3 a4
    rw [add_zero, add_zero, add_zero, add_zero]
  add_comm a b := by
    obtain ⟨a1, a2, a3, a4⟩ := a
    obtain ⟨b1, b2, b3, b4⟩ := b
    show RegStats.mk (a1 + b1) (a2 + b2) (a3 + b3) (a4 + b4) =
      RegStats.mk (b1 + a1) (b2 + a2) (b3 + a3) (b4 + a4)
    rw [add_comm, add_comm a2 b2, add_comm a3 b3, add_comm a4 b4]
  nsmul := nsmulRec

/-- Row mask of `_get_statistics`: `~np.isnan(data).any(1)`, i.e. keep a row
iff no coordinate is NaN (±inf coordinates are NOT NaN and are kept). -/
def rowKeep (r : Row din dout) : Bool :=
  !(decide (∃ j, (r j).isnanB = true))

/-- Row predicate of the spec's words: all coordinates finite
(no NaN and no ±inf). -/
def rowAllFin (r : Row din dout) : Bool :=
  decide (∀ j, (r j).isfinB = true)

/-- `statmat = data.T.dot(data)`:
`statmat[j,k] = sum over rows r of r[j]*r[k]`. -/
def statmat (l : List (Row din dout)) : Matrix (Col din dout) (Col din dout) NpVal :=
  fun j k => (l.map (fun r => r j * r k)).sum

/-- The block split of `statmat` plus the row count, with NO row filtering:
the accumulation core of `_get_statistics` applied to the rows it keeps
(`xxT, yxT, yyT = statmat[:-D,:-D], statmat[-D:,:-D], statmat[-D:,-D:]`,
`n = data.shape[0]`). -/
def rawStats (l : List (Row din dout)) : RegStats din dout where
  yyT := (statmat l).submatrix Sum.inr Sum.inr
  yxT := (statmat l).submatrix Sum.inr Sum.inl
  xxT := (statmat l).submatrix Sum.inl Sum.inl
  n := NpVal.fin (l.length : ℚ)

/-- `Regression._get_statistics` on a single data matrix (non-affine):
drop the rows whose mask `~np.isnan(data).any(1)` is false, then accumulate. -/
def getStatsM (l : List (Row din dout)) : RegStats din dout :=
  rawStats (l.filter rowKeep)

/-- `Regression._get_statistics` on a list of data matrices:
`sum((self._get_statistics(d) for d in data), self._empty_statistics())`. -/
def getStatsL (ds : List (List (Row din dout))) : RegStats din dout :=
  (ds.map getStatsM).foldl (· + ·) (emptyStats din dout)

/-- `statmat = data.T.dot(weights[:,na]*data)` of the weighted path:
`statmat[j,k] = sum over rows r of r[j]*(w_r*r[k])`. -/
def wstatmat (pairs : List (Row din dout × ℚ)) :
    Matrix (Col din dout) (Col din dout) NpVal :=
  fun j k => (pairs.map (fun p => p.1 j * (NpVal.fin p.2 * p.1 k))).sum

/-- Accumulation core of `_get_weighted_statistics` on already-masked
row/weight pairs: the block split of `wstatmat` and `n = weights.sum()`. -/
def rawWStats (pairs : List (Row din dout × ℚ)) : RegStats din dout where
  yyT := (wstatmat pairs).submatrix Sum.inr Sum.inr
  yxT := (wstatmat pairs).submatrix Sum.inr Sum.inl
  xxT := (wstatmat pairs).submatrix Sum.inl Sum.inl
  n := NpVal.fin (pairs.map Prod.snd).sum

/-- `Regression._get_weighted_statistics` on a single data matrix with a
parallel weight vector: mask `gi = ~np.isnan(data).any(1)` applied to both
`data` and `weights`, then accumulate (non-affine). -/
def getWStatsM (l : List (Row din dout)) (w : List ℚ) : RegStats din dout :=
  rawWStats ((l.zip w).filter (fun p => rowKeep p.1))

/-- `Regression._get_weighted_statistics` on a LIST of data matrices, exactly
as the source has it: `sum((self._get_statistics(d) for d in data), ...)` —
note it calls the UNWEIGHTED `_get_statistics` and never reads `weights`. -/
def getWStatsL (ds : List (List (Row din dout))) (_ws : List (List ℚ)) :
    RegStats din dout :=
  (ds.map getStatsM).foldl (· + ·) (emptyStats din dout)

/-- Modelled from the spec: `inv_psd` from the repository's numeric utility
layer ("numerically stable inversion of a positive-semidefinite matrix",
source not under `src/`), in exact arithmetic: the matrix inverse, here in
the computable form `det⁻¹ • adjugate` (equal to Mathlib's `A⁻¹`).
Also the exact-arithmetic model of `np.linalg.inv`. -/
def minv {ι : Type} [Fintype ι] [DecidableEq ι] (A : Matrix ι ι ℚ) :
    Matrix ι ι ℚ :=
  A.det⁻¹ • A.adjugate

/-- Standard MNIW hyperparameters `(nu_0, S_0, M_0, K_0)`.  The coefficient
column index `ι` is `Fin D_in` for `Regression` and a block-structured index
for `ARDRegression`. -/
structure StdParams (ι : Type) (dout : ℕ) where
  nu : ℚ
  S : Matrix (Fin dout) (Fin dout) ℚ
  M : Matrix (Fin dout) ι ℚ
  K : Matrix ι ι ℚ

/-- Natural MNIW hyperparameters, the `np.array([A,B,C,d])` returned by
`_standard_to_natural`. -/
structure NatParams (ι : Type) (dout : ℕ) where
  A : Matrix (Fin dout) (Fin dout) ℚ
  B : Matrix (Fin dout) ι ℚ
  C : Matrix ι ι ℚ
  d : ℚ

/-- Elementwise addition of the natural-hyperparameter 4-tuple, the
`self.natural_hypparam + stats` of `Regression.resample`. -/
instance {ι : Type} {dout : ℕ} : Add (NatParams ι dout) :=
  ⟨fun p q => ⟨p.A + q.A, p.B + q.B, p.C + q.C, p.d + q.d⟩⟩

/-- `Regression._standard_to_natural`: `Kinv = inv_psd(K)`,
`A = S + M·Kinv·Mᵀ`, `B = M·Kinv`, `C = Kinv`, `d = nu`. -/
def standard_to_natural {ι : Type} [Fintype ι] [DecidableEq ι]
    (p : StdParams ι dout) : NatParams ι dout :=
  let Kinv := minv p.K
  ⟨p.S + p.M * Kinv * p.Mᵀ, p.M * Kinv, Kinv, p.nu⟩

/-- The `1e-8` diagonal padding constant of `_natural_to_standard`. -/
def eps8 : ℚ := 1 / 100000000

/-- The `1e-10` diagonal regularizer of `max_likelihood`. -/
def eps10 : ℚ := 1 / 10000000000

/-- `Regression._natural_to_standard` (value part, before the eigenvalue
assertions): `K = inv_psd(C)`, `M = B·K`, `S = A − B·K·Bᵀ`, `nu = d`, then
`K += 1e-8*eye`; returns `(nu, S, M, K)` with the padded `K`. -/
def natural_to_standard {ι : Type} [Fintype ι] [DecidableEq ι]
    (p : NatParams ι dout) : StdParams ι dout :=
  let K := minv p.C
  ⟨p.d, p.A - p.B * K * p.Bᵀ, p.B * K, K + eps8 • 1⟩

/-- Symmetric positive definiteness of a rational matrix.  For a SYMMETRIC
matrix over `ℚ` this is equivalent to `np.all(0 < np.linalg.eigvalsh(A))` in
exact arithmetic: if some real eigenvalue were `0` the kernel would contain a
rational vector (the kernel of a rational matrix is a rational subspace), and
if some real eigenvalue were negative a rational vector close to the real
eigenvector would witness a negative quadratic form. -/
def PosDefQ {ι : Type} [Fintype ι] (A : Matrix ι ι ℚ) : Prop :=
  Aᵀ = A ∧ ∀ x : ι → ℚ, x ≠ 0 → 0 < Matrix.dotProduct x (A.mulVec x)

/-- The two `assert np.all(0 < np.linalg.eigvalsh(...))` statements of
`_natural_to_standard`, on the recovered `S` and the padded `K`: the
conversion returns normally iff this holds, and aborts with a fatal
`AssertionError` otherwise. -/
def ntsAssertOk {ι : Type} [Fintype ι] [DecidableEq ι]
    (p : NatParams ι dout) : Prop :=
  PosDefQ (natural_to_standard p).S ∧ PosDefQ (natural_to_standard p).K

/-- Mutable parameter state of a `Regression` model: coefficient matrix `A`,
noise covariance `sigma`, and the `broken` sentinel flag (absent at
construction, modelled as initially `false`). -/
structure RegState (din dout : ℕ) where
  A : Matrix (Fin dout) (Fin din) ℚ
  sigma : Matrix (Fin dout) (Fin dout) ℚ
  broken : Bool

/-- A finite-valued sufficient-statistics tuple as passed to
`max_likelihood` (its `stats=` argument or the result of the statistics
engine on finite data). -/
structure MLStats (din dout : ℕ) where
  yyT : Matrix (Fin dout) (Fin dout) ℚ
  yxT : Matrix (Fin dout) (Fin din) ℚ
  xxT : Matrix (Fin din) (Fin din) ℚ
  n : ℚ

/-- Exact-arithmetic model of `np.linalg.solve(A, B)` on a NONSINGULAR
system: `A⁻¹·B`.  (On a singular `A` the numpy call raises `LinAlgError`;
`max_likelihood` models that branch explicitly by testing the determinant.) -/
def npSolve {ι κ : Type} [Fintype ι] [DecidableEq ι]
    (A : Matrix ι ι ℚ) (B : Matrix ι κ ℚ) : Matrix ι κ ℚ :=
  minv A * B

/-- The local `symmetrize` helper of `max_likelihood`: `(A + A.T)/2`. -/
def symmetrize {dout : ℕ} (A : Matrix (Fin dout) (Fin dout) ℚ) :
    Matrix (Fin dout) (Fin dout) ℚ :=
  ((1 : ℚ) / 2) • (A + Aᵀ)

/-- `Regression.max_likelihood` given a statistics tuple: if `n > 0`, try
`A = solve(xxT, yxT.T).T` and
`sigma = 1e-10*eye + symmetrize((yyT - A·yxT.T)/n)`; the solve raises
`LinAlgError` exactly when `xxT` is singular (`det = 0` in exact
arithmetic), which is caught and sets `broken = True`; if `n == 0` (or
negative), `broken = True`.  The trailing asserts are `mlAssertOk`. -/
def max_likelihood (s : MLStats din dout) (m : RegState din dout) :
    RegState din dout :=
  if 0 < s.n then
    if s.xxT.det ≠ 0 then
      let A := (npSolve s.xxT s.yxTᵀ)ᵀ
      { m with
        A := A
        sigma := eps10 • (1 : Matrix (Fin dout) (Fin dout) ℚ) +
          symmetrize ((1 / s.n) • (s.yyT - A * s.yxTᵀ)) }
    else { m with broken := true }
  else { m with broken := true }

/-- The two assertions at the end of `max_likelihood`:
`np.allclose(sigma, sigma.T)` and `np.all(eigvalsh(sigma) > 0)`, in exact
arithmetic.  They run on ALL paths, including the broken ones; the call
raises `AssertionError` iff this fails on the resulting state. -/
def mlAssertOk (m : RegState din dout) : Prop :=
  m.sigmaᵀ = m.sigma ∧ PosDefQ m.sigma

/-- A data row with finite entries. -/
abbrev RowQ (din dout : ℕ) := Col din dout → ℚ

/-- Embedding of a finite-valued row into `NpVal` entries. -/
def embedRow (r : RowQ din dout) : Row din dout :=
  fun j => NpVal.fin (r j)

/-- `self._get_statistics(data)` on a finite-valued data matrix, as the
`ℚ`-valued tuple `(yyT, yxT, xxT, n)` it produces there. -/
def statsQ (l : List (RowQ din dout)) : MLStats din dout :=
  let s := getStatsM (l.map embedRow)
  ⟨s.yyT.map NpVal.toQ, s.yxT.map NpVal.toQ, s.xxT.map NpVal.toQ, s.n.toQ⟩

/-- State of a `RegressionNonconj` model: `(A, sigma)`, the coefficient prior
in information form `(J_0, h_0)`, the inverse-Wishart prior `(S_0, nu_0)` on
`sigma`, and the sweep count `niter`.  `h_0` is kept in matrix shape; the
code's `ravel`/`reshape` round-trips are bijective reindexings absorbed into
the Gaussian sampling oracle's types. -/
structure NCState (din dout : ℕ) where
  A : Matrix (Fin dout) (Fin din) ℚ
  sigma : Matrix (Fin dout) (Fin dout) ℚ
  h_0 : Matrix (Fin dout) (Fin din) ℚ
  J_0 : Matrix (Fin dout × Fin din) (Fin dout × Fin din) ℚ
  nu_0 : ℚ
  S_0 : Matrix (Fin dout) (Fin dout) ℚ
  niter : ℕ

/-- `RegressionNonconj._resample_A`: `sigmainv = np.linalg.inv(sigma)`,
`J = J_0 + np.kron(sigmainv, xxT)`, `h = h_0 + sigmainv.dot(yxT)`, then draw
`A = sample_gaussian(J=J, h=h.ravel()).reshape(...)` through the oracle
`gdraw` (modelled from the spec: the trusted Gaussian information-form
sampling primitive). -/
def ncResampleA
    (gdraw : Matrix (Fin dout × Fin din) (Fin dout × Fin din) ℚ →
      Matrix (Fin dout) (Fin din) ℚ → Matrix (Fin dout) (Fin din) ℚ)
    (xxT : Matrix (Fin din) (Fin din) ℚ) (yxT : Matrix (Fin dout) (Fin din) ℚ)
    (st : NCState din dout) : NCState din dout :=
  let sigmainv := minv st.sigma
  let J := st.J_0 + Matrix.kroneckerMap (· * ·) sigmainv xxT
  let h := st.h_0 + sigmainv * yxT
  { st with A := gdraw J h }

/-- `RegressionNonconj._resample_sigma`:
`S = S_0 + yyT - yxT·Aᵀ - A·yxTᵀ + A·xxT·Aᵀ`, `nu = nu_0 + n`, then draw
`sigma = sample_invwishart(S, nu)` through the oracle `iwdraw` (modelled from
the spec: the trusted inverse-Wishart sampling primitive). -/
def ncResampleSigma
    (iwdraw : Matrix (Fin dout) (Fin dout) ℚ → ℚ → Matrix (Fin dout) (Fin dout) ℚ)
    (xxT : Matrix (Fin din) (Fin din) ℚ) (yxT : Matrix (Fin dout) (Fin din) ℚ)
    (yyT : Matrix (Fin dout) (Fin dout) ℚ) (n : ℚ)
    (st : NCState din dout) : NCState din dout :=
  { st with
    sigma := iwdraw
      (st.S_0 + yyT - yxT * st.Aᵀ - st.A * yxTᵀ + st.A * xxT * st.Aᵀ)
      (st.nu_0 + n) }

/-- The `for itr in xrange(niter)` loop of `RegressionNonconj.resample`:
each pass runs `_resample_A` (using the current `sigma`) and then
`_resample_sigma` (using the just-drawn `A`). -/
def ncLoop
    (gdraw : Matrix (Fin dout × Fin din) (Fin dout × Fin din) ℚ →
      Matrix (Fin dout) (Fin din) ℚ → Matrix (Fin dout) (Fin din) ℚ)
    (iwdraw : Matrix (Fin dout) (Fin dout) ℚ → ℚ → Matrix (Fin dout) (Fin dout) ℚ)
    (s : MLStats din dout) : ℕ → NCState din dout → NCState din dout
  | 0, st => st
  | k + 1, st =>
      ncLoop gdraw iwdraw s k
        (ncResampleSigma iwdraw s.xxT s.yxT s.yyT s.n
          (ncResampleA gdraw s.xxT s.yxT st))

/-- `RegressionNonconj.resample(data)` (with the default `niter=None`, so the
sweep count is `self.niter`): if `getdatasize(data) == 0` (modelled from the
spec: the total row count of the dataset), draw `A` from the prior Gaussian
`(J_0, h_0)` and `sigma` from the prior inverse-Wishart `(S_0, nu_0)`;
otherwise compute the sufficient statistics once and run `niter` sweeps. -/
def resampleNC
    (gdraw : Matrix (Fin dout × Fin din) (Fin dout × Fin din) ℚ →
      Matrix (Fin dout) (Fin din) ℚ → Matrix (Fin dout) (Fin din) ℚ)
    (iwdraw : Matrix (Fin dout) (Fin dout) ℚ → ℚ → Matrix (Fin dout) (Fin dout) ℚ)
    (data : List (RowQ din dout)) (st : NCState din dout) : NCState din dout :=
  if data.length = 0 then
    { st with A := gdraw st.J_0 st.h_0, sigma := iwdraw st.S_0 st.nu_0 }
  else
    ncLoop gdraw iwdraw (statsQ data) st.niter st

/-- One Gibbs sweep as the spec words it: draw `A | sigma, stats` from the
Gaussian with precision `J = J_0 + sigma⁻¹ ⊗ xxT` and potential
`h = h_0 + sigma⁻¹·yxT`, then draw `sigma | A, stats` from the
inverse-Wishart with scale `S_0 + yyT − yxT·Aᵀ − A·yxTᵀ + A·xxT·Aᵀ` and
degrees of freedom `nu_0 + n`. -/
def ncSpecSweep
    (gdraw : Matrix (Fin dout × Fin din) (Fin dout × Fin din) ℚ →
      Matrix (Fin dout) (Fin din) ℚ → Matrix (Fin dout) (Fin din) ℚ)
    (iwdraw : Matrix (Fin dout) (Fin dout) ℚ → ℚ → Matrix (Fin dout) (Fin dout) ℚ)
    (s : MLStats din dout) (st : NCState din dout) : NCState din dout :=
  let sigmainv := minv st.sigma
  let Anew := gdraw (st.J_0 + Matrix.kroneckerMap (· * ·) sigmainv s.xxT)
    (st.h_0 + sigmainv * s.yxT)
  { st with
    A := Anew
    sigma := iwdraw
      (st.S_0 + s.yyT - s.yxT * Anewᵀ - Anew * s.yxTᵀ + Anew * s.xxT * Anewᵀ)
      (st.nu_0 + s.n) }

/-- Coefficient column index of an `ARDRegression` with block widths `bs`:
column `⟨i, k⟩` is the `k`-th column of block `i`.  This is the block
partition that `blocksizes`/`starts = cumsum(blocksizes, strict=True)`/
`stops = cumsum(blocksizes, strict=False)` (modelled from the spec: the
strict/non-strict cumulative-sum helper for block boundaries, source not
under `src/`) carve out of the flat column range: block `i` covers columns
`starts[i]` to `stops[i]`, i.e. exactly the pairs `⟨i, k⟩`. -/
abbrev ACol {nb : ℕ} (bs : Fin nb → ℕ) := (i : Fin nb) × Fin (bs i)

/-- State of an `ARDRegression` model: per-block Gamma hyperparameters
`a`, `b` (already `np.repeat`-ed to one scalar per block), the standard
hyperparameters `nu_0`, `S_0`, `M_0`, the current diagonal prior covariance
`K_0`, the derived natural hyperparameters, the regression parameters
`(A, sigma)` and the sweep count. -/
structure ARDState {nb : ℕ} (bs : Fin nb → ℕ) (dout : ℕ) where
  a : Fin nb → ℚ
  b : Fin nb → ℚ
  nu_0 : ℚ
  S_0 : Matrix (Fin dout) (Fin dout) ℚ
  M_0 : Matrix (Fin dout) (ACol bs) ℚ
  K_0 : Matrix (ACol bs) (ACol bs) ℚ
  natural_hypparam : NatParams (ACol bs) dout
  A : Matrix (Fin dout) (ACol bs) ℚ
  sigma : Matrix (Fin dout) (Fin dout) ℚ
  niter : ℕ

/-- `ARDRegression.resample_K(diag)`: without `diag`, each block variance is
`1/np.random.gamma(a_i, scale=1/b_i)`; with `diag`, the Gamma shape becomes
`a_i + D_out*blocksize_i/2` and the scale `1/(b_i + diag[start_i:stop_i].sum())`;
then `K_0 = np.diag(np.repeat(ks, blocksizes))` (each block variance repeated
across its block's columns) and the natural hyperparameters are recomputed
from `(nu_0, S_0, M_0, K_0)`.  `gammaDraw i shape scale` is the oracle for
`np.random.gamma` (modelled from the spec: trusted sampling primitive),
indexed by the block it draws for. -/
def resample_K {nb : ℕ} {bs : Fin nb → ℕ}
    (gammaDraw : Fin nb → ℚ → ℚ → ℚ)
    (diagArg : Option (ACol bs → ℚ)) (st : ARDState bs dout) :
    ARDState bs dout :=
  let a : Fin nb → ℚ :=
    match diagArg with
    | none => st.a
    | some _ => fun i => st.a i + (dout : ℚ) * (bs i : ℚ) / 2
  let b : Fin nb → ℚ :=
    match diagArg with
    | none => st.b
    | some diag => fun i => st.b i + ∑ k : Fin (bs i), diag ⟨i, k⟩
  let ks : Fin nb → ℚ := fun i => 1 / gammaDraw i (a i) (1 / b i)
  let K0 : Matrix (ACol bs) (ACol bs) ℚ := Matrix.diagonal (fun c => ks c.1)
  { st with
    K_0 := K0
    natural_hypparam := standard_to_natural ⟨st.nu_0, st.S_0, st.M_0, K0⟩ }

/-- The `ARDRegression.parameters` setter: unpack `(A, sigma, K_0)` and
assign those three attributes (and nothing else). -/
def ardSetParameters {nb : ℕ} {bs : Fin nb → ℕ} (st : ARDState bs dout)
    (t : Matrix (Fin dout) (ACol bs) ℚ × Matrix (Fin dout) (Fin dout) ℚ ×
      Matrix (ACol bs) (ACol bs) ℚ) : ARDState bs dout :=
  { st with A := t.1, sigma := t.2.1, K_0 := t.2.2 }

/-- The inherited conjugate `Regression.resample` on an ARD model, given a
sufficient-statistics tuple (in the natural-parameter-aligned shape): draw
`(A, sigma) = sample_mniw(*self._natural_to_standard(self.natural_hypparam
+ stats))` through the oracle `mniwDraw` (modelled from the spec: the trusted
matrix-normal-inverse-Wishart sampling primitive). -/
def regResampleStats {nb : ℕ} {bs : Fin nb → ℕ}
    (mniwDraw : StdParams (ACol bs) dout →
      Matrix (Fin dout) (ACol bs) ℚ × Matrix (Fin dout) (Fin dout) ℚ)
    (stats : NatParams (ACol bs) dout) (st : ARDState bs dout) :
    ARDState bs dout :=
  let drawn := mniwDraw (natural_to_standard (st.natural_hypparam + stats))
  { st with A := drawn.1, sigma := drawn.2 }

/-- Concrete 1-input/1-output row `[+inf, 1]`: its input coordinate is
+infinity (non-finite but not NaN). -/
def infRow : Row 1 1 :=
  Sum.elim (fun _ => NpVal.pinf) (fun _ => NpVal.fin 1)

/-- Concrete 1-input/1-output row `[nan, 1]`. -/
def nanRow : Row 1 1 :=
  Sum.elim (fun _ => NpVal.nan) (fun _ => NpVal.fin 1)

/-- Concrete all-finite 1-input/1-output row `[1, 1]`. -/
def oneRow : Row 1 1 :=
  Sum.elim (fun _ => NpVal.fin 1) (fun _ => NpVal.fin 1)

/-- Concrete finite-valued row `[1, 1]` for the non-conjugate sampler. -/
def rowQone : RowQ 1 1 := fun _ => 1

/-! ## Basic lemmas -/

theorem NpVal.zero_eq_fin : (0 : NpVal) = NpVal.fin 0 := rfl

theorem NpVal.fin_add_fin (a b : ℚ) :
    NpVal.fin a + NpVal.fin b = NpVal.fin (a + b) := rfl

theorem NpVal.fin_mul_fin (a b : ℚ) :
    NpVal.fin a * NpVal.fin b = NpVal.fin (a * b) := rfl

theorem RegStats.add_def (s t : RegStats din dout) :
    s + t = ⟨s.yyT + t.yyT, s.yxT + t.yxT, s.xxT + t.xxT, s.n + t.n⟩ := rfl

theorem emptyStats_eq_zero : emptyStats din dout = 0 := rfl

theorem minv_eq {ι : Type} [Fintype ι] [DecidableEq ι] (A : Matrix ι ι ℚ) :
    minv A = A⁻¹ := by
  rw [Matrix.inv_def, Ring.inverse_eq_inv]
  rfl

theorem dotProduct_self_pos {ι : Type} [Fintype ι] (x : ι → ℚ) (hx : x ≠ 0) :
    0 < Matrix.dotProduct x x := by
  obtain ⟨j, hj⟩ : ∃ j, x j ≠ 0 := by
    by_contra h
    push_neg at h
    exact hx (funext h)
  exact Finset.sum_pos' (fun i _ => mul_self_nonneg (x i))
    ⟨j, Finset.mem_univ j, mul_self_pos.mpr hj⟩

theorem posDefQ_smul_one {ι : Type} [Fintype ι] [DecidableEq ι] {c : ℚ}
    (hc : 0 < c) : PosDefQ (c • (1 : Matrix ι ι ℚ)) := by
  constructor
  · rw [Matrix.transpose_smul, Matrix.transpose_one]
  · intro x hx
    rw [Matrix.smul_mulVec_assoc, Matrix.one_mulVec, Matrix.dotProduct_smul]
    exact mul_pos hc (dotProduct_self_pos x hx)

theorem posDefQ_one {ι : Type} [Fintype ι] [DecidableEq ι] :
    PosDefQ (1 : Matrix ι ι ℚ) := by
  have h : PosDefQ ((1 : ℚ) • (1 : Matrix ι ι ℚ)) := posDefQ_smul_one one_pos
  rwa [one_smul] at h

theorem posDefQ_add {ι : Type} [Fintype ι] {A B : Matrix ι ι ℚ}
    (hA : PosDefQ A) (hB : PosDefQ B) : PosDefQ (A + B) := by
  refine ⟨by rw [Matrix.transpose_add, hA.1, hB.1], fun x hx => ?_⟩
  rw [Matrix.add_mulVec, Matrix.dotProduct_add]
  exact add_pos (hA.2 x hx) (hB.2 x hx)

theorem eps8_pos : 0 < eps8 := by norm_num [eps8]

/-- Core of the round trip: standard → natural → standard recovers `nu`, `S`
and `M` exactly, and `K` up to the added `1e-8` diagonal padding, whenever
`K` is invertible and symmetric. -/
theorem stn_nts_roundtrip {dout : ℕ} {ι : Type} [Fintype ι] [DecidableEq ι]
    (p : StdParams ι dout) (hdet : IsUnit p.K.det) (hsym : p.Kᵀ = p.K) :
    natural_to_standard (standard_to_natural p) =
      ⟨p.nu, p.S, p.M, p.K + eps8 • 1⟩ := by
  obtain ⟨nu, S, M, K⟩ := p
  simp only [standard_to_natural, natural_to_standard, minv_eq] at *
  rw [Matrix.nonsing_inv_nonsing_inv _ hdet]
  have htr : (M * K⁻¹)ᵀ = K⁻¹ * Mᵀ := by
    rw [Matrix.transpose_mul, Matrix.transpose_nonsing_inv, hsym]
  have hKK : M * K⁻¹ * K * (M * K⁻¹)ᵀ = M * K⁻¹ * Mᵀ := by
    rw [htr, Matrix.mul_assoc (M * K⁻¹) K _, ← Matrix.mul_assoc K K⁻¹ _,
      Matrix.mul_nonsing_inv _ hdet, Matrix.one_mul, Matrix.mul_assoc]
  have hM : M * K⁻¹ * K = M := by
    rw [Matrix.mul_assoc, Matrix.nonsing_inv_mul _ hdet, Matrix.mul_one]
  simp only [StdParams.mk.injEq]
  exact ⟨trivial, by rw [hKK]; exact add_sub_cancel_right _ _, by rw [hM], trivial⟩

/-! ## Statistics engine lemmas -/

theorem statmat_append (l1 l2 : List (Row din dout)) :
    statmat (l1 ++ l2) = statmat l1 + statmat l2 := by
  funext j k
  simp [statmat, List.map_append, List.sum_append, Matrix.add_apply]

theorem rawStats_append (l1 l2 : List (Row din dout)) :
    rawStats (l1 ++ l2) = rawStats l1 + rawStats l2 := by
  refine RegStats.ext ?_ ?_ ?_ ?_ <;>
    simp [rawStats, RegStats.add_def, statmat_append, Matrix.submatrix_add,
      List.length_append, Nat.cast_add, NpVal.fin_add_fin]

theorem getStatsM_append (l1 l2 : List (Row din dout)) :
    getStatsM (l1 ++ l2) = getStatsM l1 + getStatsM l2 := by
  unfold getStatsM
  rw [List.filter_append, rawStats_append]

theorem statmat_nil : statmat ([] : List (Row din dout)) = 0 := by
  funext j k
  simp [statmat]

theorem getStatsM_nil : getStatsM ([] : List (Row din dout)) = emptyStats din dout := by
  refine RegStats.ext ?_ ?_ ?_ ?_ <;>
    simp [getStatsM, rawStats, statmat_nil, emptyStats, Matrix.submatrix_zero,
      ← NpVal.zero_eq_fin]

theorem foldl_stats_flatten :
    ∀ (ds : List (List (Row din dout))) (s : RegStats din dout),
      (ds.map getStatsM).foldl (· + ·) s = s + getStatsM ds.flatten
  | [], s => by
      simp [getStatsM_nil, emptyStats_eq_zero]
  | d :: ds, s => by
      simp only [List.map_cons, List.foldl_cons, List.flatten_cons,
        foldl_stats_flatten ds (s + getStatsM d), getStatsM_append, add_assoc]

theorem rowKeep_false_of_nan {r : Row din dout}
    (h : ∃ j, (r j).isnanB = true) : rowKeep r = false := by
  have hd : decide (∃ j, (r j).isnanB = true) = true := decide_eq_true h
  unfold rowKeep
  rw [hd]
  rfl

theorem rowKeep_true_of_no_nan {r : Row din dout}
    (h : ∀ j, (r j).isnanB = false) : rowKeep r = true := by
  have hne : ¬ ∃ j, (r j).isnanB = true := fun ⟨j, hj⟩ => by simp [h j] at hj
  unfold rowKeep
  rw [decide_eq_false hne]
  rfl

theorem ncLoop_eq_iterate
    (gdraw : Matrix (Fin dout × Fin din) (Fin dout × Fin din) ℚ →
      Matrix (Fin dout) (Fin din) ℚ → Matrix (Fin dout) (Fin din) ℚ)
    (iwdraw : Matrix (Fin dout) (Fin dout) ℚ → ℚ → Matrix (Fin dout) (Fin dout) ℚ)
    (s : MLStats din dout) :
    ∀ (k : ℕ) (st : NCState din dout),
      ncLoop gdraw iwdraw s k st = (ncSpecSweep gdraw iwdraw s)^[k] st
  | 0, st => rfl
  | k + 1, st => by
      rw [ncLoop, Function.iterate_succ_apply, ncLoop_eq_iterate gdraw iwdraw s k]
      rfl

/-! ## Claim theorems -/

/-- C1: for every standard MNIW tuple `(nu, S, M, K)` with `K` invertible and
`S`, `K` symmetric positive definite, `_natural_to_standard` applied to
`_standard_to_natural` reproduces `nu`, `S` and `M` exactly, and `K` up to
the added `1e-8` diagonal regularizer, in exact arithmetic. -/
theorem claim_C1 {ι : Type} [Fintype ι] [DecidableEq ι] {dout : ℕ}
    (p : StdParams ι dout) (_hS : PosDefQ p.S) (hK : PosDefQ p.K)
    (hdet : IsUnit p.K.det) :
    natural_to_standard (standard_to_natural p) =
      ⟨p.nu, p.S, p.M, p.K + eps8 • 1⟩ :=
  stn_nts_roundtrip p hdet hK.1

/-- Witness for C1 at `nu = 3`, `S = M = K = 1` over one coefficient and one
output dimension. -/
theorem claim_C1_witness :
    PosDefQ (1 : Matrix (Fin 1) (Fin 1) ℚ) ∧
    IsUnit (1 : Matrix (Fin 1) (Fin 1) ℚ).det ∧
    natural_to_standard (standard_to_natural (⟨3, 1, 1, 1⟩ : StdParams (Fin 1) 1)) =
      ⟨3, 1, 1, (1 : Matrix (Fin 1) (Fin 1) ℚ) + eps8 • 1⟩ :=
  ⟨posDefQ_one, by simp,
    claim_C1 ⟨3, 1, 1, 1⟩ posDefQ_one posDefQ_one (by simp)⟩

/-- C2: when the statistics have `n == 0`, or `xxT` is singular so the linear
solve fails, `max_likelihood` only sets the broken flag (leaving `A` and
`sigma` untouched) and — provided the model invariant that `sigma` is
symmetric positive definite held before the call — the trailing assertions
pass, so the call returns without raising. -/
theorem claim_C2 (s : MLStats din dout) (m : RegState din dout)
    (hsym : m.sigmaᵀ = m.sigma) (hpd : PosDefQ m.sigma)
    (hfail : s.n = 0 ∨ s.xxT.det = 0) :
    max_likelihood s m = { m with broken := true } ∧
    mlAssertOk (max_likelihood s m) := by
  have hml : max_likelihood s m = { m with broken := true } := by
    unfold max_likelihood
    rcases hfail with h | h
    · simp [h]
    · by_cases hn : 0 < s.n
      · simp [hn, h]
      · simp [hn]
  exact ⟨hml, by rw [hml]; exact ⟨hsym, hpd⟩⟩

/-- Witness for C2 at a statistics tuple with `n = 0` on a model with
`sigma = 1`. -/
theorem claim_C2_witness :
    ((⟨1, 1, 1, 0⟩ : MLStats 1 1).n = 0 ∨ (⟨1, 1, 1, 0⟩ : MLStats 1 1).xxT.det = 0) ∧
    (max_likelihood (⟨1, 1, 1, 0⟩ : MLStats 1 1) ⟨0, 1, false⟩ =
      { (⟨0, 1, false⟩ : RegState 1 1) with broken := true } ∧
      mlAssertOk (max_likelihood (⟨1, 1, 1, 0⟩ : MLStats 1 1) ⟨0, 1, false⟩)) :=
  ⟨Or.inl rfl,
    claim_C2 ⟨1, 1, 1, 0⟩ ⟨0, 1, false⟩ transpose_one posDefQ_one (Or.inl rfl)⟩

/-- C3: sufficient statistics form a commutative monoid under elementwise
addition with the `_empty_statistics` identity; the statistics of a list of
datasets are the fold of the per-dataset statistics from that identity, and
equal the statistics of the row-wise concatenation of the datasets. -/
theorem claim_C3 :
    (∀ s t u : RegStats din dout, s + t + u = s + (t + u)) ∧
    (∀ s t : RegStats din dout, s + t = t + s) ∧
    (∀ s : RegStats din dout,
      emptyStats din dout + s = s ∧ s + emptyStats din dout = s) ∧
    (∀ ds : List (List (Row din dout)),
      getStatsL ds = (ds.map getStatsM).foldl (· + ·) (emptyStats din dout)) ∧
    (∀ ds : List (List (Row din dout)), getStatsL ds = getStatsM ds.flatten) := by
  refine ⟨fun s t u => add_assoc s t u, fun s t => add_comm s t,
    fun s => ⟨?_, ?_⟩, fun ds => rfl, fun ds => ?_⟩
  · rw [emptyStats_eq_zero]
    exact zero_add s
  · rw [emptyStats_eq_zero]
    exact add_zero s
  · rw [getStatsL, foldl_stats_flatten, emptyStats_eq_zero, zero_add]

/-- C4 as stated is false: the code's row mask is `~np.isnan(data).any(1)`
and `np.isnan` is false on ±inf, so a row containing +infinity (and no NaN)
is NOT excluded from accumulation: on the data matrix `[[+inf, 1]]` the
computed statistics differ from the statistics of the all-finite-filtered
data (the count `n` is 1 versus 0). -/
theorem claim_C4_counterexample :
    ¬ (getStatsM [infRow] = rawStats (List.filter rowAllFin [infRow])) := by
  intro h
  have hn := congrArg RegStats.n h
  have h1 : rowKeep infRow = true := by decide
  have h2 : rowAllFin infRow = false := by decide
  simp [getStatsM, rawStats, List.filter, h1, h2] at hn

/-- C4 amended: in both the unweighted and the weighted statistics paths,
every row containing a NaN coordinate is excluded from accumulation, and
when no row contains NaN the accumulation runs over all rows (so ±inf rows
are kept). -/
theorem claim_C4_amended :
    (∀ (l1 l2 : List (Row din dout)) (r : Row din dout),
      (∃ j, (r j).isnanB = true) →
        getStatsM (l1 ++ r :: l2) = getStatsM (l1 ++ l2)) ∧
    (∀ l : List (Row din dout), (∀ r ∈ l, ∀ j, (r j).isnanB = false) →
      getStatsM l = rawStats l) ∧
    (∀ (l1 l2 : List (Row din dout)) (w1 w2 : List ℚ)
        (r : Row din dout) (w : ℚ), l1.length = w1.length →
      (∃ j, (r j).isnanB = true) →
        getWStatsM (l1 ++ r :: l2) (w1 ++ w :: w2) =
          getWStatsM (l1 ++ l2) (w1 ++ w2)) ∧
    (∀ (l : List (Row din dout)) (w : List ℚ),
      (∀ r ∈ l, ∀ j, (r j).isnanB = false) →
        getWStatsM l w = rawWStats (l.zip w)) := by
  refine ⟨fun l1 l2 r h => ?_, fun l h => ?_, fun l1 l2 w1 w2 r w hlen h => ?_,
    fun l w h => ?_⟩
  · unfold getStatsM
    rw [List.filter_append, List.filter_append, List.filter_cons,
      rowKeep_false_of_nan h]
    simp
  · unfold getStatsM
    rw [List.filter_eq_self.mpr fun r hr => rowKeep_true_of_no_nan (h r hr)]
  · unfold getWStatsM
    rw [List.zip_append hlen, List.zip_append hlen]
    show rawWStats (List.filter _ (_ ++ (r, w) :: List.zip l2 w2)) = _
    rw [List.filter_append, List.filter_cons]
    simp [rowKeep_false_of_nan h, ← List.filter_append]
  · unfold getWStatsM
    rw [List.filter_eq_self.mpr]
    intro p hp
    exact rowKeep_true_of_no_nan (h p.1 (List.of_mem_zip hp).1)

/-- Witness for C4 amended: a NaN row is dropped, an all-finite row is kept,
in both paths. -/
theorem claim_C4_witness :
    getStatsM [nanRow] = getStatsM ([] : List (Row 1 1)) ∧
    getStatsM [oneRow] = rawStats [oneRow] ∧
    getWStatsM [nanRow] [(3 : ℚ)] = getWStatsM ([] : List (Row 1 1)) [] ∧
    getWStatsM [oneRow] [(3 : ℚ)] = rawWStats ([oneRow].zip [(3 : ℚ)]) := by
  have hnan : ∃ j, (nanRow j).isnanB = true := ⟨Sum.inl 0, rfl⟩
  have hone : ∀ r ∈ [oneRow], ∀ j, (r j).isnanB = false := by decide
  exact ⟨claim_C4_amended.1 [] [] nanRow hnan,
    claim_C4_amended.2.1 [oneRow] hone,
    claim_C4_amended.2.2.1 [] [] [] [] nanRow 3 rfl hnan,
    claim_C4_amended.2.2.2 [oneRow] [3] hone⟩

/-- C5: the list-of-datasets branch of `_get_weighted_statistics` ignores the
supplied weights entirely (it calls the unweighted `_get_statistics`): on the
dataset list `[[[1,1]]]` with weight list `[[2]]` it returns the unweighted
statistics with `n = 1`, whereas the single-matrix weighted path (the claimed
behavior, which the spec asserts for list inputs too) yields `n = 2`. -/
theorem claim_C5_eval :
    getWStatsL [[oneRow]] [[(2 : ℚ)]] = getStatsL [[oneRow]] ∧
    (getWStatsL [[oneRow]] [[(2 : ℚ)]]).n = NpVal.fin 1 ∧
    (getWStatsM [oneRow] [(2 : ℚ)]).n = NpVal.fin 2 := by
  have h1 : rowKeep oneRow = true := by decide
  refine ⟨rfl, ?_, ?_⟩
  · simp [getWStatsL, getStatsM, rawStats, emptyStats, List.filter, h1,
      RegStats.add_def, NpVal.zero_eq_fin, NpVal.fin_add_fin]
  · simp [getWStatsM, rawWStats, List.filter, List.zip, h1, NpVal.zero_eq_fin,
      NpVal.fin_add_fin]

/-- C6: with `n > 0` and nonsingular `xxT`, `max_likelihood` replaces `A` by
the solution of the linear system `xxT·Aᵀ = yxTᵀ` (computed via a solve) and
`sigma` by the symmetrization of `(yyT − A·yxTᵀ)/n` plus the `1e-10`
diagonal regularizer, leaving the broken flag untouched. -/
theorem claim_C6 (s : MLStats din dout) (m : RegState din dout)
    (hn : 0 < s.n) (hdet : s.xxT.det ≠ 0) :
    s.xxT * (max_likelihood s m).Aᵀ = s.yxTᵀ ∧
    (max_likelihood s m).A = (npSolve s.xxT s.yxTᵀ)ᵀ ∧
    (max_likelihood s m).sigma =
      eps10 • 1 +
        symmetrize ((1 / s.n) • (s.yyT - (max_likelihood s m).A * s.yxTᵀ)) ∧
    (max_likelihood s m).broken = m.broken := by
  have hml : max_likelihood s m =
      { m with
        A := (npSolve s.xxT s.yxTᵀ)ᵀ
        sigma := eps10 • (1 : Matrix (Fin dout) (Fin dout) ℚ) +
          symmetrize ((1 / s.n) • (s.yyT - (npSolve s.xxT s.yxTᵀ)ᵀ * s.yxTᵀ)) } := by
    unfold max_likelihood
    simp [hn, hdet]
  rw [hml]
  refine ⟨?_, rfl, rfl, rfl⟩
  rw [transpose_transpose, npSolve, minv_eq, ← Matrix.mul_assoc,
    Matrix.mul_nonsing_inv _ (isUnit_iff_ne_zero.mpr hdet), Matrix.one_mul]

/-- Witness for C6 at the statistics tuple `(1, 1, 1, 1)`. -/
theorem claim_C6_witness :
    (0 < (⟨1, 1, 1, 1⟩ : MLStats 1 1).n ∧ (⟨1, 1, 1, 1⟩ : MLStats 1 1).xxT.det ≠ 0) ∧
    (⟨1, 1, 1, 1⟩ : MLStats 1 1).xxT *
        (max_likelihood (⟨1, 1, 1, 1⟩ : MLStats 1 1) ⟨0, 1, false⟩).Aᵀ =
      (⟨1, 1, 1, 1⟩ : MLStats 1 1).yxTᵀ := by
  have h1 : (0 : ℚ) < 1 := one_pos
  have h2 : (⟨1, 1, 1, 1⟩ : MLStats 1 1).xxT.det ≠ 0 := by simp
  exact ⟨⟨h1, h2⟩, (claim_C6 ⟨1, 1, 1, 1⟩ ⟨0, 1, false⟩ h1 h2).1⟩

/-- C7: with empty data, `RegressionNonconj.resample` draws `A` from the
prior Gaussian `(J_0, h_0)` and `sigma` from the prior inverse-Wishart
`(S_0, nu_0)`; with non-empty data it computes the sufficient statistics
once and then iterates, `niter` times, the sweep that draws `A | sigma`
(precision `J_0 + sigma⁻¹ ⊗ xxT`, potential `h_0 + sigma⁻¹·yxT`) and then
`sigma | A` (inverse-Wishart scale `S_0 + yyT − yxT·Aᵀ − A·yxTᵀ + A·xxT·Aᵀ`,
degrees of freedom `nu_0 + n`). -/
theorem claim_C7
    (gdraw : Matrix (Fin dout × Fin din) (Fin dout × Fin din) ℚ →
      Matrix (Fin dout) (Fin din) ℚ → Matrix (Fin dout) (Fin din) ℚ)
    (iwdraw : Matrix (Fin dout) (Fin dout) ℚ → ℚ → Matrix (Fin dout) (Fin dout) ℚ)
    (st : NCState din dout) (data : List (RowQ din dout)) :
    (data = [] → resampleNC gdraw iwdraw data st =
      { st with A := gdraw st.J_0 st.h_0, sigma := iwdraw st.S_0 st.nu_0 }) ∧
    (data ≠ [] → resampleNC gdraw iwdraw data st =
      (ncSpecSweep gdraw iwdraw (statsQ data))^[st.niter] st) := by
  constructor
  · intro h
    subst h
    rfl
  · intro h
    have hlen : ¬ data.length = 0 := by
      simpa [List.length_eq_zero] using h
    unfold resampleNC
    rw [if_neg hlen, ncLoop_eq_iterate]

/-- Witness for C7 at a concrete one-dimensional model with constant
sampling oracles, once with empty data and once with one data row. -/
theorem claim_C7_witness :
    (resampleNC (fun _ _ => 1) (fun _ _ => 1) []
        (⟨0, 1, 0, 0, 3, 1, 2⟩ : NCState 1 1) =
      { (⟨0, 1, 0, 0, 3, 1, 2⟩ : NCState 1 1) with
        A := (fun (_ : Matrix (Fin 1 × Fin 1) (Fin 1 × Fin 1) ℚ)
          (_ : Matrix (Fin 1) (Fin 1) ℚ) => (1 : Matrix (Fin 1) (Fin 1) ℚ)) 0 0
        sigma := (fun (_ : Matrix (Fin 1) (Fin 1) ℚ) (_ : ℚ) =>
          (1 : Matrix (Fin 1) (Fin 1) ℚ)) 1 3 }) ∧
    resampleNC (fun _ _ => 1) (fun _ _ => 1) [rowQone]
        (⟨0, 1, 0, 0, 3, 1, 2⟩ : NCState 1 1) =
      (ncSpecSweep (fun _ _ => 1) (fun _ _ => 1) (statsQ [rowQone]))^[2]
        (⟨0, 1, 0, 0, 3, 1, 2⟩ : NCState 1 1) :=
  ⟨(claim_C7 (fun _ _ => 1) (fun _ _ => 1) ⟨0, 1, 0, 0, 3, 1, 2⟩ []).1 rfl,
    (claim_C7 (fun _ _ => 1) (fun _ _ => 1) ⟨0, 1, 0, 0, 3, 1, 2⟩ [rowQone]).2
      (List.cons_ne_nil _ _)⟩

/-- C8: `resample_K` with `diag=None` draws each block variance as
`1/Gamma(a_i, scale=1/b_i)`; with a `diag` vector the Gamma shape for block
`i` is `a_i + D_out*blocksize_i/2` and the rate is `b_i` plus the sum of
`diag` over that block's columns; in both cases `K_0` is rebuilt as the
diagonal matrix repeating each block variance across its block width and the
natural hyperparameters are recomputed from `(nu_0, S_0, M_0, K_0)`. -/
theorem claim_C8 {nb : ℕ} {bs : Fin nb → ℕ}
    (gammaDraw : Fin nb → ℚ → ℚ → ℚ) (st : ARDState bs dout)
    (diag : ACol bs → ℚ) :
    ((resample_K gammaDraw none st).K_0 =
        Matrix.diagonal (fun c : ACol bs =>
          1 / gammaDraw c.1 (st.a c.1) (1 / st.b c.1)) ∧
      (resample_K gammaDraw none st).natural_hypparam =
        standard_to_natural
          ⟨st.nu_0, st.S_0, st.M_0, (resample_K gammaDraw none st).K_0⟩) ∧
    ((resample_K gammaDraw (some diag) st).K_0 =
        Matrix.diagonal (fun c : ACol bs =>
          1 / gammaDraw c.1 (st.a c.1 + (dout : ℚ) * (bs c.1 : ℚ) / 2)
            (1 / (st.b c.1 + ∑ k : Fin (bs c.1), diag ⟨c.1, k⟩))) ∧
      (resample_K gammaDraw (some diag) st).natural_hypparam =
        standard_to_natural
          ⟨st.nu_0, st.S_0, st.M_0, (resample_K gammaDraw (some diag) st).K_0⟩) :=
  ⟨⟨rfl, rfl⟩, ⟨rfl, rfl⟩⟩

/-- C10: the ARD `parameters` setter assigns exactly `A`, `sigma` and `K_0`,
leaving `natural_hypparam` (and every other attribute) unchanged, so a
subsequent conjugate resample draws from the natural hyperparameters derived
from the old `K_0`: its result is the same as without the setter's `K_0`
write. -/
theorem claim_C10 {nb : ℕ} {bs : Fin nb → ℕ} (st : ARDState bs dout)
    (t : Matrix (Fin dout) (ACol bs) ℚ × Matrix (Fin dout) (Fin dout) ℚ ×
      Matrix (ACol bs) (ACol bs) ℚ)
    (mniwDraw : StdParams (ACol bs) dout →
      Matrix (Fin dout) (ACol bs) ℚ × Matrix (Fin dout) (Fin dout) ℚ)
    (stats : NatParams (ACol bs) dout) :
    (ardSetParameters st t).A = t.1 ∧
    (ardSetParameters st t).sigma = t.2.1 ∧
    (ardSetParameters st t).K_0 = t.2.2 ∧
    (ardSetParameters st t).natural_hypparam = st.natural_hypparam ∧
    (ardSetParameters st t).a = st.a ∧
    (ardSetParameters st t).b = st.b ∧
    (ardSetParameters st t).nu_0 = st.nu_0 ∧
    (ardSetParameters st t).S_0 = st.S_0 ∧
    (ardSetParameters st t).M_0 = st.M_0 ∧
    (ardSetParameters st t).niter = st.niter ∧
    (regResampleStats mniwDraw stats (ardSetParameters st t)).A =
      (regResampleStats mniwDraw stats st).A ∧
    (regResampleStats mniwDraw stats (ardSetParameters st t)).sigma =
      (regResampleStats mniwDraw stats st).sigma :=
  ⟨rfl, rfl, rfl, rfl, rfl, rfl, rfl, rfl, rfl, rfl, rfl, rfl⟩

/-- C9: `_natural_to_standard` returns normally iff the recovered `S` and the
padded `K` are (symmetric) positive definite — `np.linalg.eigvalsh` has all
eigenvalues positive — and fails the fatal assertion exactly otherwise; on
the output of `_standard_to_natural` from symmetric positive definite `S` and
`K` (with `K` invertible, as the spec requires of callers) both checks pass. -/
theorem claim_C9 {ι : Type} [Fintype ι] [DecidableEq ι] {dout : ℕ} :
    (∀ q : NatParams ι dout,
      ntsAssertOk q ↔
        (PosDefQ (natural_to_standard q).S ∧ PosDefQ (natural_to_standard q).K)) ∧
    ∀ p : StdParams ι dout, PosDefQ p.S → PosDefQ p.K → IsUnit p.K.det →
      ntsAssertOk (standard_to_natural p) := by
  refine ⟨fun q => Iff.rfl, fun p hS hK hdet => ?_⟩
  unfold ntsAssertOk
  rw [stn_nts_roundtrip p hdet hK.1]
  exact ⟨hS, posDefQ_add hK (posDefQ_smul_one eps8_pos)⟩

/-- Witness for C9 at `nu = 3`, `S = M = K = 1`. -/
theorem claim_C9_witness :
    PosDefQ (1 : Matrix (Fin 1) (Fin 1) ℚ) ∧
    ntsAssertOk (standard_to_natural (⟨3, 1, 1, 1⟩ : StdParams (Fin 1) 1)) :=
  ⟨posDefQ_one, claim_C9.2 (⟨3, 1, 1, 1⟩ : StdParams (Fin 1) 1)
    posDefQ_one posDefQ_one (by simp)⟩

end PyBasicBayes
